import Mathlib

/-!
Verification of the OSB (Orthogonal Sparse Bigram) sliding-window tokenizer
(`crates/nlp/src/tokenizers/osb.rs`) and of the `ValidateSieveScriptRequest`
JSON parser (`crates/jmap-proto/src/method/validate.rs`) of the mail-server
repository.

The Rust code is shallowly embedded: the upstream `Peekable` iterator over
tokens becomes a `List α` (for a list source, `next` pops the head and `peek`
inspects the head without popping, which is observationally the behaviour of
`Peekable`), the `Vec<Option<Cow<str>>>` buffer becomes a `List (Option α)`,
and `usize` counters become `Nat` (the counters only grow by 1 per call, far
from any overflow, and all arithmetic on them is `%`-reduced).
-/

namespace MailServer

/-- The `Gram` enum of osb.rs: a unigram (the anchor alone) or an ordered
bigram (anchor paired with a later token). -/
inductive Gram (α : Type) where
  | Uni : α → Gram α
  | Bi : α → α → Gram α
  deriving Repr, DecidableEq

/-- The `OsbToken` struct of osb.rs: an emitted gram together with its window
offset `idx`.  The Rust code is generic over `R : From<Gram>`; we instantiate
the feature constructor with the identity (`R = Gram`), which loses nothing
since the conversion is applied pointwise to the emitted stream. -/
structure OsbToken (α : Type) where
  inner : Gram α
  idx : Nat
  deriving Repr, DecidableEq

/-- The `OsbTokenizer` struct of osb.rs: the peekable upstream source, the
circular buffer of `window_size` optional slots, and the two cursors. -/
structure OsbTokenizer (α : Type) where
  iter : List α
  buf : List (Option α)
  window_size : Nat
  window_pos : Nat
  window_idx : Nat
  deriving Repr, DecidableEq

/-- `OsbTokenizer::new`: buffer of `window_size` empty slots, both cursors 0.
The Rust constructor performs no validation of `window_size`. -/
def OsbTokenizer.new (iter : List α) (window_size : Nat) : OsbTokenizer α :=
  { iter := iter
    buf := List.replicate window_size none
    window_size := window_size
    window_pos := 0
    window_idx := 0 }

/-- Result of one `next()` call.  `panic` models the Rust panic that
`(self.window_pos + self.window_idx) % self.window_size` raises when
`window_size == 0` (integer remainder by zero panics in Rust); `done s` models
`next()` returning `None` with post-state `s`; `yield t s` models
`Some(t)` with post-state `s`. -/
inductive Step (α : Type) where
  | panic : Step α
  | yield : OsbToken α → OsbTokenizer α → Step α
  | done : OsbTokenizer α → Step α
  deriving Repr, DecidableEq

/-- In-place update of one buffer slot (`self.buf[p] = v`); out-of-range
writes cannot occur on the paths we prove about, and are modelled as no-ops. -/
def setAt : List β → Nat → β → List β
  | [], _, _ => []
  | _ :: bs, 0, v => v :: bs
  | b :: bs, n+1, v => b :: setAt bs n v

/-- The slot-fill prefix of `next()`:
`if self.buf[end_pos].is_none() { self.buf[end_pos] = self.iter.next(); }`.
Pulling from an exhausted source stores `None` again. -/
def fillStep (s : OsbTokenizer α) (p : Nat) : OsbTokenizer α :=
  if (s.buf.getD p none).isNone then
    match s.iter with
    | [] => { s with buf := setAt s.buf p none }
    | t :: ts => { s with buf := setAt s.buf p (some t), iter := ts }
  else s

/-- The cursor-advance suffix of `next()`: increment `window_idx`; if it
reached `window_size`, or the source is exhausted and the next needed slot is
empty, clear the anchor slot and move to the next anchor. -/
def advance (s : OsbTokenizer α) : OsbTokenizer α :=
  if s.window_idx + 1 = s.window_size ∨
      (s.iter.isEmpty ∧
        (s.buf.getD ((s.window_pos + (s.window_idx + 1)) % s.window_size) none).isNone) then
    { s with buf := setAt s.buf (s.window_pos % s.window_size) none
             window_idx := 0
             window_pos := s.window_pos + 1 }
  else { s with window_idx := s.window_idx + 1 }

/-- The gram-construction core of `next()`, run after the slot at `p`
(`end_pos`) has been filled: read the anchor slot (`None` aborts the whole
call), build `Uni` at offset 0 or `Bi` otherwise (an empty paired slot aborts
the call), then advance the cursors. -/
def nextCore (s : OsbTokenizer α) (p : Nat) : Step α :=
  match s.buf.getD (s.window_pos % s.window_size) none with
  | none => .done s
  | some t1 =>
    if s.window_idx = 0 then
      .yield ⟨Gram.Uni t1, s.window_idx⟩ (advance s)
    else
      match s.buf.getD p none with
      | none => .done s
      | some t2 => .yield ⟨Gram.Bi t1 t2, s.window_idx⟩ (advance s)

/-- `<OsbTokenizer as Iterator>::next` of osb.rs.  With `window_size == 0` the
first statement `(self.window_pos + self.window_idx) % self.window_size`
panics (remainder by zero), modelled by `Step.panic`. -/
def OsbTokenizer.next (s : OsbTokenizer α) : Step α :=
  if s.window_size = 0 then .panic
  else nextCore (fillStep s ((s.window_pos + s.window_idx) % s.window_size))
    ((s.window_pos + s.window_idx) % s.window_size)

/-- Call `next()` up to `fuel` times, collecting the emitted tokens and the
state at which iteration stopped (first `None`, or fuel exhaustion). -/
def runAll (fuel : Nat) (s : OsbTokenizer α) : List (OsbToken α) × OsbTokenizer α :=
  match fuel with
  | 0 => ([], s)
  | fl+1 =>
    match s.next with
    | .yield t s' => let r := runAll fl s'; (t :: r.1, r.2)
    | .done s' => ([], s')
    | .panic => ([], s)

/-! ## Specification-side description of the emitted stream

`osbSpec` is written from the spec's words (C1): for each anchor `i` in
increasing order, first `(Uni x_i, 0)`, then `(Bi x_i x_{i+k}, k)` for
`k = 1, …, min
 W (N-i) - 1`. -/

/-- The `Bi` grams of one anchor `x`: `⟨Bi x y_j, k+j⟩` for the first
`min w |ys|` followers `y_j` of the anchor. -/
def biGrams (x : α) : Nat → Nat → List α → List (OsbToken α)
  | _, _, [] => []
  | 0, _, _ :: _ => []
  | w+1, k, y :: ys => ⟨Gram.Bi x y, k⟩ :: biGrams x w (k+1) ys

/-- All grams of one anchor `x` with followers `rest`: the unigram at offset
0, then bigrams at offsets `1, …, min W (rest.length+1) - 1`. -/
def anchorGrams (W : Nat) (x : α) (rest : List α) : List (OsbToken α) :=
  ⟨Gram.Uni x, 0⟩ :: biGrams x (W - 1) 1 rest

/-- The full spec stream: anchor by anchor, in order. -/
def osbSpec (W : Nat) : List α → List (OsbToken α)
  | [] => []
  | x :: rest => anchorGrams W x rest ++ osbSpec W rest

/-- The spec stream starting mid-anchor: the current anchor's grams from
offset `k` on, then all later anchors. -/
def specTail (W k : Nat) : List α → List (OsbToken α)
  | [] => []
  | x :: rest => (anchorGrams W x rest).drop k ++ osbSpec W rest

/-- `Σ_{i=0}^{N-1} min W (N-i)`, the total gram count of the spec (C2). -/
def totalGrams (W : Nat) : List α → Nat
  | [] => 0
  | _ :: rest => min W (rest.length + 1) + totalGrams W rest

theorem length_biGrams (x : α) (w k : Nat) (ys : List α) :
    (biGrams x w k ys).length = min w ys.length := by
  induction ys generalizing w k with
  | nil => simp [biGrams]
  | cons y ys ih =>
    cases w with
    | zero => simp [biGrams]
    | succ w => simp [biGrams, ih w (k+1)]; omega

theorem length_anchorGrams (hW : 0 < W) (x : α) (rest : List α) :
    (anchorGrams W x rest).length = min W (rest.length + 1) := by
  simp [anchorGrams, length_biGrams]; omega

theorem length_osbSpec (hW : 0 < W) (l : List α) :
    (osbSpec W l).length = totalGrams W l := by
  induction l with
  | nil => simp [osbSpec, totalGrams]
  | cons x rest ih =>
    simp [osbSpec, totalGrams, length_anchorGrams hW, ih]

theorem specTail_zero (W : Nat) (l : List α) : specTail W 0 l = osbSpec W l := by
  cases l <;> simp [specTail, osbSpec]

theorem biGrams_zero (x : α) (k : Nat) (ys : List α) : biGrams x 0 k ys = [] := by
  cases ys <;> simp [biGrams]

/-- Dropping `d` grams from a `biGrams` block advances the window budget, the
offset and the follower list in lockstep. -/
theorem biGrams_drop (x : α) (w k d : Nat) (ys : List α) :
    (biGrams x w k ys).drop d = biGrams x (w - d) (k + d) (ys.drop d) := by
  induction ys generalizing w k d with
  | nil => simp [biGrams]
  | cons y ys ih =>
    cases w with
    | zero => simp [biGrams, biGrams_zero]
    | succ w =>
      cases d with
      | zero => simp
      | succ d =>
        have h1 : w + 1 - (d + 1) = w - d := by omega
        have h2 : k + 1 + d = k + (d + 1) := by omega
        simp only [biGrams, List.drop_succ_cons, ih w (k+1) d, h1, h2]

/-- Unfolding one gram off a nonempty `biGrams` block. -/
theorem biGrams_cons (x y : α) (w k : Nat) (ys : List α) (hw : 0 < w) :
    biGrams x w k (y :: ys) = ⟨Gram.Bi x y, k⟩ :: biGrams x (w-1) (k+1) ys := by
  cases w with
  | zero => omega
  | succ w => simp [biGrams]

theorem biGrams_eq_nil (x : α) (w k : Nat) (ys : List α)
    (h : min w ys.length = 0) : biGrams x w k ys = [] := by
  have := length_biGrams x w k ys
  rw [h] at this
  exact List.eq_nil_of_length_eq_zero this

/-! ## Buffer helper lemmas -/

theorem setAt_length (l : List β) (n : Nat) (v : β) : (setAt l n v).length = l.length := by
  induction l generalizing n with
  | nil => simp [setAt]
  | cons b bs ih =>
    cases n with
    | zero => simp [setAt]
    | succ n => simp [setAt, ih n]

theorem setAt_getD (l : List (Option α)) (n m : Nat) (v : Option α) :
    (setAt l n v).getD m none =
      if n = m ∧ m < l.length then v else l.getD m none := by
  induction l generalizing n m with
  | nil => simp [setAt]
  | cons b bs ih =>
    cases n with
    | zero =>
      cases m with
      | zero => simp [setAt]
      | succ m => simp [setAt]
    | succ n =>
      cases m with
      | zero => simp [setAt]
      | succ m =>
        simp only [setAt, List.getD_cons_succ, ih n m, List.length_cons]
        by_cases h : n = m ∧ m < bs.length
        · rw [if_pos h, if_pos ⟨by omega, by omega⟩]
        · rw [if_neg h, if_neg (by omega)]

theorem setAt_self (l : List (Option α)) (n : Nat) : setAt l n (l.getD n none) = l := by
  induction l generalizing n with
  | nil => simp [setAt]
  | cons b bs ih =>
    cases n with
    | zero => simp [setAt]
    | succ n => simp only [setAt, List.getD_cons_succ, ih n]

/-- Two optional-slot buffers with the same length and the same `getD` reads
in range are equal. -/
theorem buf_ext (l₁ l₂ : List (Option α)) (hl : l₁.length = l₂.length)
    (hg : ∀ s, s < l₁.length → l₁.getD s none = l₂.getD s none) : l₁ = l₂ := by
  induction l₁ generalizing l₂ with
  | nil => cases l₂ with
    | nil => rfl
    | cons b bs => simp at hl
  | cons b bs ih =>
    cases l₂ with
    | nil => simp at hl
    | cons c cs =>
      have h0 := hg 0 (by simp)
      simp only [List.getD_cons_zero] at h0
      have ht : bs = cs := by
        refine ih cs (by simpa using hl) (fun s hs => ?_)
        have := hg (s+1) (by simpa using Nat.succ_lt_succ hs)
        simpa using this
      rw [h0, ht]

/-! ## Circular-slot index arithmetic -/

/-- The logical window offset stored at physical slot `s` of a window whose
anchor sits at logical position `i`. -/
def jIdx (W i s : Nat) : Nat := (s + W - i % W) % W

theorem jIdx_lt (hW : 0 < W) (i s : Nat) : jIdx W i s < W := Nat.mod_lt _ hW

/-- Physical slot `(i + j) % W` stores logical offset `j` (for `j < W`). -/
theorem jIdx_spec (hW : 0 < W) (i j : Nat) (hj : j < W) :
    jIdx W i ((i + j) % W) = j := by
  unfold jIdx
  have hr : i % W < W := Nat.mod_lt _ hW
  have h1 : (i + j) % W = (i % W + j) % W := by
    rw [Nat.add_mod, Nat.mod_eq_of_lt hj]
  rw [h1]
  rcases Nat.lt_or_ge (i % W + j) W with h | h
  · rw [Nat.mod_eq_of_lt h]
    have h2 : i % W + j + W - i % W = W + j := by omega
    rw [h2, Nat.add_mod_left, Nat.mod_eq_of_lt hj]
  · have h2 : (i % W + j) % W = i % W + j - W := by
      rw [Nat.mod_eq_sub_mod h, Nat.mod_eq_of_lt (by omega)]
    rw [h2]
    have h3 : i % W + j - W + W - i % W = j := by omega
    rw [h3, Nat.mod_eq_of_lt hj]

/-- Every physical slot `s < W` is slot `(i + jIdx W i s) % W`. -/
theorem jIdx_inv (hW : 0 < W) (i s : Nat) (hs : s < W) :
    (i + jIdx W i s) % W = s := by
  unfold jIdx
  have hr : i % W < W := Nat.mod_lt _ hW
  have hq : W * (i / W) + i % W = i := Nat.div_add_mod i W
  have hm : W * (i / W + 1) = W * (i / W) + W := by ring
  rcases Nat.lt_or_ge s (i % W) with h | h
  · have h1 : (s + W - i % W) % W = s + W - i % W :=
      Nat.mod_eq_of_lt (by omega)
    rw [h1]
    have h2 : i + (s + W - i % W) = W * (i / W + 1) + s := by omega
    rw [h2, Nat.mul_add_mod, Nat.mod_eq_of_lt hs]
  · have h1 : (s + W - i % W) % W = s - i % W := by
      rw [Nat.mod_eq_sub_mod (by omega), Nat.mod_eq_of_lt (by omega)]
      omega
    rw [h1]
    have h2 : i + (s - i % W) = W * (i / W) + s := by omega
    rw [h2, Nat.mul_add_mod, Nat.mod_eq_of_lt hs]

/-- Advancing the anchor by one rotates every slot's logical offset down by
one (the old anchor slot wraps to the top of the window). -/
theorem jIdx_succ (hW : 0 < W) (i s : Nat) (hs : s < W) :
    jIdx W (i+1) s = if jIdx W i s = 0 then W - 1 else jIdx W i s - 1 := by
  have hj := jIdx_lt hW i s
  have hsi : s = (i + jIdx W i s) % W := (jIdx_inv hW i s hs).symm
  by_cases h0 : jIdx W i s = 0
  · rw [if_pos h0]
    have h2 : jIdx W (i+1) ((i + jIdx W i s) % W) = W - 1 := by
      have h1 : (i + jIdx W i s) % W = (i + 1 + (W - 1)) % W := by
        have h3 : i + 1 + (W - 1) = i + jIdx W i s + W := by omega
        rw [h3, Nat.add_mod_right]
      rw [h1, jIdx_spec hW (i+1) (W-1) (by omega)]
    rw [← hsi] at h2
    exact h2
  · rw [if_neg h0]
    have h2 : jIdx W (i+1) ((i + jIdx W i s) % W) = jIdx W i s - 1 := by
      have h1 : i + jIdx W i s = i + 1 + (jIdx W i s - 1) := by omega
      rw [h1, jIdx_spec hW (i+1) (jIdx W i s - 1) (by omega)]
    rw [← hsi] at h2
    exact h2

/-! ## The canonical (reachable) tokenizer states -/

/-- The buffer holding the tokens `x_i, …, x_{i+f-1}` of the window anchored
at `i`, each at its physical slot `(i+j) % W`, all other slots empty. -/
def canonBuf (xs : List α) (W i f : Nat) : List (Option α) :=
  (List.range W).map (fun s => if jIdx W i s < f then xs[i + jIdx W i s]? else none)

theorem canonBuf_length (xs : List α) (W i f : Nat) : (canonBuf xs W i f).length = W := by
  simp [canonBuf]

theorem canonBuf_getD (xs : List α) (W i f s : Nat) (hs : s < W) :
    (canonBuf xs W i f).getD s none =
      if jIdx W i s < f then xs[i + jIdx W i s]? else none := by
  simp only [canonBuf, List.getD_eq_getElem?_getD, List.getElem?_map,
    List.getElem?_range, hs]
  simp

/-- Reading the slot of logical offset `j`. -/
theorem canonBuf_read (xs : List α) (W i f j : Nat) (hW : 0 < W) (hj : j < W) :
    (canonBuf xs W i f).getD ((i + j) % W) none =
      if j < f then xs[i + j]? else none := by
  rw [canonBuf_getD xs W i f _ (Nat.mod_lt _ hW), jIdx_spec hW i j hj]

theorem canonBuf_zero (xs : List α) (W i : Nat) :
    canonBuf xs W i 0 = List.replicate W none := by
  rw [List.eq_replicate_iff]
  constructor
  · simp [canonBuf]
  · intro b hb
    simp only [canonBuf, List.mem_map] at hb
    obtain ⟨s, _, hbs⟩ := hb
    simpa using hbs.symm

/-- Filling the next lookahead slot extends the live window by one token. -/
theorem canonBuf_fill (xs : List α) (W i f : Nat) (t : α) (hW : 0 < W)
    (hf : f < W) (ht : xs[i + f]? = some t) :
    setAt (canonBuf xs W i f) ((i + f) % W) (some t) = canonBuf xs W i (f + 1) := by
  refine buf_ext _ _ (by simp [setAt_length, canonBuf_length]) (fun s hs => ?_)
  rw [setAt_length, canonBuf_length] at hs
  rw [setAt_getD, canonBuf_length, canonBuf_getD xs W i (f+1) s hs,
    canonBuf_getD xs W i f s hs]
  by_cases he : (i + f) % W = s
  · rw [if_pos ⟨he, hs⟩]
    have hj : jIdx W i s = f := by rw [← he, jIdx_spec hW i f hf]
    rw [hj, if_pos (Nat.lt_succ_self f), ht]
  · rw [if_neg (by tauto)]
    have hj : jIdx W i s ≠ f := by
      intro h
      exact he (by rw [← h]; exact jIdx_inv hW i s hs)
    by_cases hlt : jIdx W i s < f
    · rw [if_pos hlt, if_pos (by omega)]
    · rw [if_neg hlt, if_neg (by omega)]

/-- Clearing the anchor slot turns the window for anchor `i` holding `f`
tokens into the window for anchor `i+1` holding `f-1` tokens. -/
theorem canonBuf_clear (xs : List α) (W i f : Nat) (hW : 0 < W) (hf : f ≤ W) :
    setAt (canonBuf xs W i f) (i % W) none = canonBuf xs W (i+1) (f - 1) := by
  refine buf_ext _ _ (by simp [setAt_length, canonBuf_length]) (fun s hs => ?_)
  rw [setAt_length, canonBuf_length] at hs
  rw [setAt_getD, canonBuf_length, canonBuf_getD xs W (i+1) (f-1) s hs,
    canonBuf_getD xs W i f s hs, jIdx_succ hW i s hs]
  by_cases he : i % W = s
  · rw [if_pos ⟨he, hs⟩]
    have hj : jIdx W i s = 0 := by
      have : (i + 0) % W = s := by simpa using he
      rw [← this, jIdx_spec hW i 0 hW]
    rw [hj, if_pos rfl, if_neg (by omega)]
  · rw [if_neg (by tauto)]
    have hj : jIdx W i s ≠ 0 := by
      intro h
      refine he ?_
      have := jIdx_inv hW i s hs
      rw [h, Nat.add_zero] at this
      exact this
    rw [if_neg hj]
    by_cases hlt : jIdx W i s < f
    · rw [if_pos hlt, if_pos (by omega)]
      congr 1
      omega
    · rw [if_neg hlt, if_neg (by omega)]

/-- The canonical state of the tokenizer after fully emitting all anchors
before `i`, emitting the first `k` grams of anchor `i`, and having fetched
`f` window tokens (`x_i … x_{i+f-1}`) from the source. -/
def canonical (xs : List α) (W i k f : Nat) : OsbTokenizer α :=
  { iter := xs.drop (i + f)
    buf := canonBuf xs W i f
    window_size := W
    window_pos := i
    window_idx := k }

theorem canonical_iter (xs : List α) (W i k f : Nat) :
    (canonical xs W i k f).iter = xs.drop (i + f) := rfl

theorem canonical_buf (xs : List α) (W i k f : Nat) :
    (canonical xs W i k f).buf = canonBuf xs W i f := rfl

theorem canonical_wsize (xs : List α) (W i k f : Nat) :
    (canonical xs W i k f).window_size = W := rfl

theorem canonical_wpos (xs : List α) (W i k f : Nat) :
    (canonical xs W i k f).window_pos = i := rfl

theorem canonical_widx (xs : List α) (W i k f : Nat) :
    (canonical xs W i k f).window_idx = k := rfl

/-- The invariant satisfied by every reachable state (with `N = xs.length`):
`k ≤ f < W`, at most `N - i` tokens fetched, the current gram index `k` is a
real gram of anchor `i` while anchors remain, and past the last anchor the
state is exactly the terminal one. -/
def Valid (xs : List α) (W i k f : Nat) : Prop :=
  1 ≤ W ∧ k ≤ f ∧ i + f ≤ xs.length ∧ f < W ∧
  (i < xs.length → k < min W (xs.length - i)) ∧
  (xs.length ≤ i → i = xs.length ∧ k = 0 ∧ f = 0)

theorem valid_init (xs : List α) (W : Nat) (hW : 1 ≤ W) : Valid xs W 0 0 0 := by
  refine ⟨hW, Nat.le_refl 0, by omega, hW, fun hi => ?_, fun hi => ⟨by omega, rfl, rfl⟩⟩
  omega

theorem new_eq_canonical (xs : List α) (W : Nat) :
    OsbTokenizer.new xs W = canonical xs W 0 0 0 := by
  simp [OsbTokenizer.new, canonical, canonBuf_zero]

/-- The slot-fill prefix of `next()` on a canonical state: if slot `k` is
already live nothing happens, otherwise (then `k = f`) one token is pulled. -/
theorem fill_canonical (xs : List α) (W i k f : Nat) (hW : 0 < W)
    (hkf : k ≤ f) (hfW : f < W) (hik : i + k < xs.length) :
    fillStep (canonical xs W i k f) ((i + k) % W) =
      canonical xs W i k (max f (k+1)) := by
  unfold fillStep
  simp only [canonical]
  rw [canonBuf_read xs W i f k hW (by omega)]
  by_cases hlt : k < f
  · rw [if_pos hlt]
    have hsome : xs[i + k]? = some xs[i + k] := List.getElem?_eq_getElem hik
    rw [hsome]
    simp only [Option.isNone_some, Bool.false_eq_true, if_false]
    have hmax : max f (k+1) = f := by omega
    rw [hmax]
  · have hkf' : k = f := by omega
    rw [if_neg hlt]
    simp only [Option.isNone_none, if_true]
    subst hkf'
    have hdrop : xs.drop (i + k) = xs[i + k] :: xs.drop (i + k + 1) :=
      List.drop_eq_getElem_cons hik
    rw [hdrop]
    have hfill := canonBuf_fill xs W i k xs[i + k] hW hfW (List.getElem?_eq_getElem hik)
    simp only [hfill]
    have hmax : max k (k+1) = k + 1 := by omega
    rw [hmax]
    have hidx : i + k + 1 = i + (k + 1) := by omega
    rw [hidx]

/-- The terminal state: anchor past the end, empty buffer, empty source.
`next()` finds the anchor slot empty and returns `None`, leaving the state
unchanged. -/
theorem next_canonical_terminal (xs : List α) (W : Nat) (hW : 0 < W) :
    (canonical xs W xs.length 0 0).next = .done (canonical xs W xs.length 0 0) := by
  unfold OsbTokenizer.next
  rw [if_neg (by simp [canonical]; omega)]
  have hfill : fillStep (canonical xs W xs.length 0 0)
      ((xs.length + 0) % W) = canonical xs W xs.length 0 0 := by
    unfold fillStep
    simp only [canonical]
    rw [canonBuf_read xs W xs.length 0 0 hW hW]
    simp only [Nat.lt_irrefl, if_false, Option.isNone_none, if_true]
    rw [List.drop_eq_nil_of_le (by omega)]
    have hset : setAt (canonBuf xs W xs.length 0) ((xs.length + 0) % W) none =
        canonBuf xs W xs.length 0 := by
      have hrd := canonBuf_read xs W xs.length 0 0 hW hW
      simp only [Nat.lt_irrefl, if_false] at hrd
      calc setAt (canonBuf xs W xs.length 0) ((xs.length + 0) % W) none
          = setAt (canonBuf xs W xs.length 0) ((xs.length + 0) % W)
              ((canonBuf xs W xs.length 0).getD ((xs.length + 0) % W) none) := by rw [hrd]
        _ = canonBuf xs W xs.length 0 := setAt_self _ _
    rw [hset]
  simp only [canonical_wpos, canonical_widx, canonical_wsize]
  rw [hfill]
  unfold nextCore
  simp only [canonical]
  have hrd : (canonBuf xs W xs.length 0).getD (xs.length % W) none = none := by
    have := canonBuf_read xs W xs.length 0 0 hW hW
    simpa using this
  rw [hrd]

/-- The cursor-advance suffix of `next()` on a canonical state holding `f₂`
live tokens: the dual roll-over condition (`window_idx` hit `window_size`, or
source exhausted with the next needed slot empty) is equivalent to having
just emitted the last gram `min W (N-i) - 1` of the anchor. -/
theorem advance_canonical (xs : List α) (W i k f₂ : Nat) (hW : 0 < W)
    (h1 : k + 1 ≤ min W (xs.length - i)) (h2 : k < f₂)
    (h3 : i + f₂ ≤ xs.length) (h4 : f₂ ≤ W) :
    advance (canonical xs W i k f₂) =
      if k + 1 = min W (xs.length - i)
      then canonical xs W (i+1) 0 (f₂ - 1)
      else canonical xs W i (k+1) f₂ := by
  have hiff : (k + 1 = W ∨
      ((xs.drop (i + f₂)).isEmpty ∧
        ((canonBuf xs W i f₂).getD ((i + (k + 1)) % W) none).isNone)) ↔
      k + 1 = min W (xs.length - i) := by
    constructor
    · rintro (hC | ⟨hE, hN⟩)
      · omega
      · rw [List.isEmpty_iff, List.drop_eq_nil_iff] at hE
        rcases Nat.lt_or_ge (k+1) W with hkW | hkW
        · rw [canonBuf_read xs W i f₂ (k+1) hW hkW] at hN
          by_cases hlt : k + 1 < f₂
          · rw [if_pos hlt] at hN
            have hsome : xs[i + (k+1)]? = some xs[i + (k+1)] :=
              List.getElem?_eq_getElem (by omega)
            rw [hsome] at hN
            simp at hN
          · omega
        · omega
    · intro h
      rcases Nat.lt_or_ge (xs.length - i) W with hNW | hNW
      · refine Or.inr ⟨?_, ?_⟩
        · rw [List.isEmpty_iff, List.drop_eq_nil_iff]
          omega
        · rw [canonBuf_read xs W i f₂ (k+1) hW (by omega), if_neg (by omega)]
          rfl
      · omega
  unfold advance
  simp only [canonical_iter, canonical_buf, canonical_wsize, canonical_wpos,
    canonical_widx]
  by_cases hroll : k + 1 = min W (xs.length - i)
  · rw [if_pos hroll, if_pos (by rw [← hiff] at hroll; exact hroll)]
    have hbuf := canonBuf_clear xs W i f₂ hW h4
    have hiter : xs.drop (i + f₂) = xs.drop (i + 1 + (f₂ - 1)) := by
      congr 1
      omega
    simp only [canonical, hbuf, hiter]
  · rw [if_neg hroll, if_neg (by rw [hiff]; exact hroll)]
    simp only [canonical]

/-- Validity is preserved when rolling over to the next anchor. -/
theorem valid_succ_roll (xs : List α) (W i k f : Nat) (hv : Valid xs W i k f)
    (hi : i < xs.length) (hr : k + 1 = min W (xs.length - i)) :
    Valid xs W (i+1) 0 (max f (k+1) - 1) := by
  unfold Valid at hv ⊢
  omega

/-- Validity is preserved when staying on the same anchor. -/
theorem valid_succ_stay (xs : List α) (W i k f : Nat) (hv : Valid xs W i k f)
    (hi : i < xs.length) (hs : k + 1 ≠ min W (xs.length - i)) :
    Valid xs W i (k+1) (max f (k+1)) := by
  unfold Valid at hv ⊢
  omega

/-- `nextCore` when the anchor slot is empty: the call yields nothing. -/
theorem nextCore_done (s : OsbTokenizer α) (p : Nat)
    (h1 : s.buf.getD (s.window_pos % s.window_size) none = none) :
    nextCore s p = .done s := by
  unfold nextCore
  simp only [h1]

/-- `nextCore` at offset 0: a unigram is emitted. -/
theorem nextCore_uni (s : OsbTokenizer α) (p : Nat) (t1 : α)
    (h0 : s.window_idx = 0)
    (h1 : s.buf.getD (s.window_pos % s.window_size) none = some t1) :
    nextCore s p = .yield ⟨Gram.Uni t1, s.window_idx⟩ (advance s) := by
  unfold nextCore
  simp only [h1]
  rw [if_pos h0]

/-- `nextCore` at a positive offset with the paired slot live: a bigram. -/
theorem nextCore_bi (s : OsbTokenizer α) (p : Nat) (t1 t2 : α)
    (h0 : ¬ s.window_idx = 0)
    (h1 : s.buf.getD (s.window_pos % s.window_size) none = some t1)
    (h2 : s.buf.getD p none = some t2) :
    nextCore s p = .yield ⟨Gram.Bi t1 t2, s.window_idx⟩ (advance s) := by
  unfold nextCore
  simp only [h1]
  rw [if_neg h0]
  simp only [h2]

/-- One full `next()` call on a canonical state with anchors remaining: it
emits the gram `(i, k)` of the spec — `Uni x_i` at offset 0, `Bi x_i x_{i+k}`
otherwise — and moves to the canonical successor state. -/
theorem next_canonical_emit (xs : List α) (W i k f : Nat) (a b : α) (hW : 0 < W)
    (hv : Valid xs W i k f) (hi : i < xs.length)
    (ha : xs[i]? = some a) (hb : xs[i + k]? = some b) :
    (canonical xs W i k f).next =
      .yield ⟨if k = 0 then Gram.Uni a else Gram.Bi a b, k⟩
        (if k + 1 = min W (xs.length - i)
         then canonical xs W (i+1) 0 (max f (k+1) - 1)
         else canonical xs W i (k+1) (max f (k+1))) := by
  obtain ⟨hW1, hkf, hif, hfW, hk, hterm⟩ := hv
  have hkm : k < min W (xs.length - i) := hk hi
  have hik : i + k < xs.length := by omega
  unfold OsbTokenizer.next
  simp only [canonical_wpos, canonical_widx, canonical_wsize]
  rw [if_neg (by omega)]
  rw [fill_canonical xs W i k f hW hkf hfW hik]
  have hanch : ((canonical xs W i k (max f (k+1))).buf).getD
      ((canonical xs W i k (max f (k+1))).window_pos %
        (canonical xs W i k (max f (k+1))).window_size) none = some a := by
    simp only [canonical_buf, canonical_wpos, canonical_wsize]
    have h0 : (i + 0) % W = i % W := by rw [Nat.add_zero]
    rw [← h0, canonBuf_read xs W i _ 0 hW hW, if_pos (by omega), Nat.add_zero, ha]
  have hadv := advance_canonical xs W i k (max f (k+1)) hW (by omega) (by omega)
    (by omega) (by omega)
  by_cases hk0 : k = 0
  · rw [nextCore_uni _ _ a (by rw [canonical_widx]; exact hk0) hanch]
    simp only [canonical_widx]
    rw [if_pos hk0, hadv]
  · have hend : ((canonical xs W i k (max f (k+1))).buf).getD ((i + k) % W) none
        = some b := by
      simp only [canonical_buf]
      rw [canonBuf_read xs W i _ k hW (by omega), if_pos (by omega), hb]
    rw [nextCore_bi _ _ a b (by rw [canonical_widx]; exact hk0) hanch hend]
    simp only [canonical_widx]
    rw [if_neg hk0, hadv]

/-- Peeling one gram off the spec stream mid-anchor: gram `k` of the current
anchor comes first; afterwards either the anchor is finished (`k+1` reached
`min W (N-i)`) and the stream continues with the next anchor, or it continues
with gram `k+1` of the same anchor. -/
theorem specTail_step (hW : 0 < W) (x : α) (rest : List α) (k : Nat)
    (hk : k < min W (rest.length + 1)) :
    specTail W k (x :: rest) =
      ⟨if k = 0 then Gram.Uni x else Gram.Bi x (rest.getD (k-1) x), k⟩ ::
      (if k + 1 = min W (rest.length + 1) then osbSpec W rest
       else specTail W (k+1) (x :: rest)) := by
  cases k with
  | zero =>
    rw [if_pos rfl]
    simp only [specTail, anchorGrams, List.drop_zero]
    by_cases h1 : 0 + 1 = min W (rest.length + 1)
    · rw [if_pos h1]
      have hnil : biGrams x (W-1) 1 rest = [] :=
        biGrams_eq_nil x (W-1) 1 rest (by omega)
      rw [hnil]
      simp
    · rw [if_neg h1]
      simp only [specTail, anchorGrams, List.drop_succ_cons, List.drop_zero]
      simp
  | succ k' =>
    rw [if_neg (by omega)]
    simp only [specTail, anchorGrams, List.drop_succ_cons]
    have hk1 : k' < W - 1 := by omega
    have hk2 : k' < rest.length := by omega
    rw [biGrams_drop x (W-1) 1 k' rest]
    rw [List.drop_eq_getElem_cons hk2]
    rw [biGrams_cons x rest[k'] (W-1-k') (1+k') (rest.drop (k'+1)) (by omega)]
    have hgd : rest.getD (k'+1-1) x = rest[k'] := by
      rw [List.getD_eq_getElem?_getD]
      have h9 : k' + 1 - 1 = k' := by omega
      rw [h9, List.getElem?_eq_getElem hk2, Option.getD_some]
    rw [hgd]
    have hidx : 1 + k' = k' + 1 := by omega
    rw [hidx]
    by_cases h1 : k' + 1 + 1 = min W (rest.length + 1)
    · rw [if_pos h1]
      have hnil : biGrams x (W-1-k'-1) (k'+1+1) (rest.drop (k'+1)) = [] := by
        refine biGrams_eq_nil x _ _ _ ?_
        rw [List.length_drop]
        omega
      rw [hnil]
      simp
    · rw [if_neg h1]
      rw [biGrams_drop x (W-1) 1 (k'+1) rest]
      have ha1 : W - 1 - (k'+1) = W - 1 - k' - 1 := by omega
      have ha2 : 1 + (k'+1) = k' + 1 + 1 := by omega
      rw [ha1, ha2, List.cons_append]

/-- Running the tokenizer from any canonical state with enough fuel produces
exactly the remaining spec stream and stops in the terminal state. -/
theorem runAll_canonical (xs : List α) (W : Nat) (hW : 0 < W) :
    ∀ fuel i k f, Valid xs W i k f →
      (specTail W k (xs.drop i)).length ≤ fuel →
      runAll fuel (canonical xs W i k f) =
        (specTail W k (xs.drop i), canonical xs W xs.length 0 0) := by
  intro fuel
  induction fuel with
  | zero =>
    intro i k f hv hfuel
    by_cases hi : i < xs.length
    · exfalso
      have hcons : xs.drop i = xs[i] :: xs.drop (i+1) := List.drop_eq_getElem_cons hi
      have hkp : k < min W ((xs.drop (i+1)).length + 1) := by
        obtain ⟨_, _, _, _, hk5, _⟩ := hv
        have := hk5 hi
        rw [List.length_drop]
        omega
      rw [hcons, specTail_step hW _ _ _ hkp] at hfuel
      simp at hfuel
    · obtain ⟨_, _, _, _, _, hterm⟩ := hv
      obtain ⟨hiN, hk0, hf0⟩ := hterm (by omega)
      subst hk0 hf0
      rw [hiN, List.drop_length]
      simp [runAll, specTail]
  | succ fl ih =>
    intro i k f hv hfuel
    by_cases hi : i < xs.length
    · obtain ⟨hW1, hkf, hif, hfW, hk5, hterm⟩ := hv
      have hv' : Valid xs W i k f := ⟨hW1, hkf, hif, hfW, hk5, hterm⟩
      have hkm := hk5 hi
      have hik : i + k < xs.length := by omega
      have ha : xs[i]? = some xs[i] := List.getElem?_eq_getElem hi
      have hb : xs[i+k]? = some xs[i+k] := List.getElem?_eq_getElem hik
      have hemit := next_canonical_emit xs W i k f xs[i] xs[i+k] hW hv' hi ha hb
      have hcons : xs.drop i = xs[i] :: xs.drop (i+1) := List.drop_eq_getElem_cons hi
      have hlen1 : (xs.drop (i+1)).length + 1 = xs.length - i := by
        rw [List.length_drop]
        omega
      have hkp : k < min W ((xs.drop (i+1)).length + 1) := by rw [hlen1]; exact hkm
      have hstep := specTail_step hW xs[i] (xs.drop (i+1)) k hkp
      rw [hlen1] at hstep
      have hgd : (xs.drop (i+1)).getD (k-1) xs[i] = xs[i+k] ∨ k = 0 := by
        by_cases hk0 : k = 0
        · exact Or.inr hk0
        · refine Or.inl ?_
          rw [List.getD_eq_getElem?_getD, List.getElem?_drop]
          have h9 : i + 1 + (k - 1) = i + k := by omega
          rw [h9, hb, Option.getD_some]
      have htok : (⟨if k = 0 then Gram.Uni xs[i]
            else Gram.Bi xs[i] ((xs.drop (i+1)).getD (k-1) xs[i]), k⟩ : OsbToken α) =
          ⟨if k = 0 then Gram.Uni xs[i] else Gram.Bi xs[i] xs[i+k], k⟩ := by
        rcases hgd with hgd | hk0
        · rw [hgd]
        · rw [if_pos hk0, if_pos hk0]
      rw [htok] at hstep
      rw [hcons, hstep]
      rw [hcons, hstep] at hfuel
      simp only [List.length_cons] at hfuel
      simp only [runAll, hemit]
      by_cases hroll : k + 1 = min W (xs.length - i)
      · rw [if_pos hroll] at hfuel
        have hvs := valid_succ_roll xs W i k f hv' hi hroll
        have hfl : (specTail W 0 (xs.drop (i+1))).length ≤ fl := by
          rw [specTail_zero]
          omega
        have hIH := ih (i+1) 0 (max f (k+1) - 1) hvs hfl
        rw [specTail_zero] at hIH
        rw [if_pos hroll, if_pos hroll, hIH]
      · rw [if_neg hroll] at hfuel
        have hvs := valid_succ_stay xs W i k f hv' hi hroll
        have hfl : (specTail W (k+1) (xs.drop i)).length ≤ fl := by
          rw [hcons]
          omega
        have hIH := ih i (k+1) (max f (k+1)) hvs hfl
        rw [hcons] at hIH
        rw [if_neg hroll, if_neg hroll, hIH]
    · obtain ⟨_, _, _, _, _, hterm⟩ := hv
      obtain ⟨hiN, hk0, hf0⟩ := hterm (by omega)
      subst hk0 hf0
      rw [hiN, List.drop_length]
      simp only [specTail]
      simp only [runAll, next_canonical_terminal xs W hW]

/-! ## Reachability -/

/-- One observable `next()` call relates a state to its post-state. -/
def stepTo (s s' : OsbTokenizer α) : Prop :=
  (∃ t, s.next = .yield t s') ∨ s.next = .done s'

/-- All states reachable from `s` by any number of `next()` calls. -/
def reaches (s s' : OsbTokenizer α) : Prop :=
  Relation.ReflTransGen stepTo s s'

theorem valid_terminal (xs : List α) (W : Nat) (hW : 0 < W) :
    Valid xs W xs.length 0 0 := by
  unfold Valid
  omega

/-- Every state reachable from a freshly constructed tokenizer (with a valid
`window_size`) is canonical. -/
theorem reach_canonical (xs : List α) (W : Nat) (hW : 0 < W)
    (s : OsbTokenizer α) (h : reaches (OsbTokenizer.new xs W) s) :
    ∃ i k f, Valid xs W i k f ∧ s = canonical xs W i k f := by
  induction h with
  | refl => exact ⟨0, 0, 0, valid_init xs W hW, new_eq_canonical xs W⟩
  | tail hsteps hstep ih =>
    obtain ⟨i, k, f, hv, hs⟩ := ih
    subst hs
    by_cases hi : i < xs.length
    · obtain ⟨hW1, hkf, hif, hfW, hk5, hterm⟩ := hv
      have hv' : Valid xs W i k f := ⟨hW1, hkf, hif, hfW, hk5, hterm⟩
      have hkm := hk5 hi
      have hik : i + k < xs.length := by omega
      have hemit := next_canonical_emit xs W i k f xs[i] xs[i+k] hW hv' hi
        (List.getElem?_eq_getElem hi) (List.getElem?_eq_getElem hik)
      rcases hstep with ⟨t, hy⟩ | hd
      · rw [hemit] at hy
        have hss := (Step.yield.injEq _ _ _ _).mp hy
        rw [← hss.2]
        by_cases hroll : k + 1 = min W (xs.length - i)
        · rw [if_pos hroll]
          exact ⟨i+1, 0, max f (k+1) - 1, valid_succ_roll xs W i k f hv' hi hroll, rfl⟩
        · rw [if_neg hroll]
          exact ⟨i, k+1, max f (k+1), valid_succ_stay xs W i k f hv' hi hroll, rfl⟩
      · rw [hemit] at hd
        exact absurd hd (by simp)
    · obtain ⟨_, _, _, _, _, hterm⟩ := hv
      obtain ⟨hiN, hk0, hf0⟩ := hterm (by omega)
      subst hk0 hf0
      rw [hiN] at hstep
      have hT := next_canonical_terminal xs W hW
      rcases hstep with ⟨t, hy⟩ | hd
      · rw [hT] at hy
        exact absurd hy (by simp)
      · rw [hT] at hd
        have := (Step.done.injEq _ _).mp hd
        exact ⟨xs.length, 0, 0, valid_terminal xs W hW, this.symm⟩

/-! ## Frame lemmas: how a single call touches the upstream source -/

theorem advance_iter (s : OsbTokenizer α) : (advance s).iter = s.iter := by
  unfold advance
  split <;> rfl

theorem fillStep_iter (s : OsbTokenizer α) (p : Nat) :
    (fillStep s p).iter = s.iter ∨ (fillStep s p).iter = s.iter.tail := by
  unfold fillStep
  by_cases h : (s.buf.getD p none).isNone
  · rw [if_pos h]
    cases hs : s.iter with
    | nil => left; rfl
    | cons t ts => right; rfl
  · rw [if_neg h]
    left
    rfl

theorem fillStep_of_some (s : OsbTokenizer α) (p : Nat)
    (h : (s.buf.getD p none).isSome) : fillStep s p = s := by
  unfold fillStep
  rw [if_neg]
  cases hv : s.buf.getD p none with
  | none => rw [hv] at h; simp at h
  | some t => simp

/-- Any post-state of a `next()` call carries the upstream source exactly as
the slot-fill step left it: nothing after the fill touches the source. -/
theorem next_state_iter (s : OsbTokenizer α) (s' : OsbTokenizer α)
    (h : (∃ t, s.next = .yield t s') ∨ s.next = .done s') :
    s'.iter = (fillStep s ((s.window_pos + s.window_idx) % s.window_size)).iter := by
  by_cases hW : s.window_size = 0
  · exfalso
    have hp : s.next = .panic := by
      unfold OsbTokenizer.next
      rw [if_pos hW]
    rcases h with ⟨t, hy⟩ | hd
    · rw [hp] at hy
      exact absurd hy (by simp)
    · rw [hp] at hd
      exact absurd hd (by simp)
  · have hn : s.next = nextCore (fillStep s ((s.window_pos + s.window_idx) % s.window_size))
        ((s.window_pos + s.window_idx) % s.window_size) := by
      unfold OsbTokenizer.next
      rw [if_neg hW]
    rcases h with ⟨t, hy⟩ | hd
    · rw [hn] at hy
      unfold nextCore at hy
      split at hy
      · exact absurd hy (by simp)
      · split at hy
        · have := (Step.yield.injEq _ _ _ _).mp hy
          rw [← this.2, advance_iter]
        · split at hy
          · exact absurd hy (by simp)
          · have := (Step.yield.injEq _ _ _ _).mp hy
            rw [← this.2, advance_iter]
    · rw [hn] at hd
      unfold nextCore at hd
      split at hd
      · have := (Step.done.injEq _ _).mp hd
        rw [← this]
      · split at hd
        · exact absurd hd (by simp)
        · split at hd
          · have := (Step.done.injEq _ _).mp hd
            rw [← this]
          · exact absurd hd (by simp)

/-! ## Derived facts used by several claims -/

/-- Running a fresh tokenizer with enough fuel yields exactly the spec stream
and ends in the terminal state. -/
theorem run_new (xs : List α) (W fuel : Nat) (hW : 1 ≤ W)
    (hfuel : totalGrams W xs ≤ fuel) :
    runAll fuel (OsbTokenizer.new xs W) =
      (osbSpec W xs, canonical xs W xs.length 0 0) := by
  rw [new_eq_canonical]
  have h0 : specTail W 0 (xs.drop 0) = osbSpec W xs := by
    rw [List.drop_zero, specTail_zero]
  have hlen : (specTail W 0 (xs.drop 0)).length ≤ fuel := by
    rw [h0, length_osbSpec hW]
    exact hfuel
  have h := runAll_canonical xs W hW fuel 0 0 0 (valid_init xs W hW) hlen
  rw [h0] at h
  exact h

theorem totalGrams_one (xs : List α) : totalGrams 1 xs = xs.length := by
  induction xs with
  | nil => rfl
  | cons x rest ih =>
    simp only [totalGrams, ih, List.length_cons]
    omega

theorem osbSpec_one (xs : List α) :
    osbSpec 1 xs = xs.map (fun x => ⟨Gram.Uni x, 0⟩) := by
  induction xs with
  | nil => rfl
  | cons x rest ih =>
    simp only [osbSpec, anchorGrams, ih, List.map_cons]
    have h : biGrams x (1 - 1) 1 rest = [] := biGrams_zero x 1 rest
    rw [h]
    simp

/-! ## Claim theorems -/

/-- C1: for every finite upstream token sequence and every `window_size ≥ 1`,
the stream produced by repeatedly calling `next()` (any call budget at least
the total gram count) is exactly, anchor by anchor in increasing order:
`(Uni x_i, 0)` first, then `(Bi x_i x_{i+k}, k)` for `k = 1 … min W (N-i)-1`,
nothing interleaved, nothing else. -/
theorem c1_osb_stream_eq_spec (α : Type) (xs : List α) (W fuel : Nat)
    (hW : 1 ≤ W) (hfuel : totalGrams W xs ≤ fuel) :
    (runAll fuel (OsbTokenizer.new xs W)).1 = osbSpec W xs := by
  rw [run_new xs W fuel hW hfuel]

theorem c1_osb_stream_eq_spec_witness :
    1 ≤ 2 ∧ totalGrams 2 [10, 11, 12] ≤ 6 ∧
    (runAll 6 (OsbTokenizer.new [10, 11, 12] 2)).1 = osbSpec 2 [10, 11, 12] :=
  ⟨by decide, by decide,
    c1_osb_stream_eq_spec Nat [10, 11, 12] 2 6 (by decide) (by decide)⟩

/-- C2: for a finite source of length `N ≥ 1` and `W ≥ 1`, the number of
items emitted before the first `None` equals `Σ_{i=0}^{N-1} min W (N-i)`;
for `N = 13`, `W = 5` this is 55 (checked in the witness). -/
theorem c2_osb_count_law (α : Type) (xs : List α) (W fuel : Nat)
    (hW : 1 ≤ W) (hN : 1 ≤ xs.length) (hfuel : totalGrams W xs ≤ fuel) :
    (runAll fuel (OsbTokenizer.new xs W)).1.length = totalGrams W xs := by
  rw [run_new xs W fuel hW hfuel]
  exact length_osbSpec hW xs

theorem c2_osb_count_law_witness :
    (runAll 55 (OsbTokenizer.new (List.range 13) 5)).1.length = 55 ∧
    totalGrams 5 (List.range 13) = 55 :=
  ⟨(c2_osb_count_law Nat (List.range 13) 5 55 (by decide) (by decide)
      (by decide)).trans (by decide),
    by decide⟩

/-- C3: in every state reachable from a fresh tokenizer the number of live
(non-`None`) buffer slots never exceeds `window_size`. -/
theorem c3_osb_bounded_memory (α : Type) (xs : List α) (W : Nat) (hW : 1 ≤ W)
    (s : OsbTokenizer α) (h : reaches (OsbTokenizer.new xs W) s) :
    s.buf.countP (fun o => o.isSome) ≤ W := by
  obtain ⟨i, k, f, hv, hs⟩ := reach_canonical xs W hW s h
  subst hs
  calc (canonical xs W i k f).buf.countP (fun o => o.isSome)
      ≤ (canonical xs W i k f).buf.length := List.countP_le_length _
    _ = W := by rw [canonical_buf, canonBuf_length]

theorem c3_osb_bounded_memory_witness :
    1 ≤ 2 ∧ (OsbTokenizer.new [10, 11] 2).buf.countP (fun o => o.isSome) ≤ 2 :=
  ⟨by decide,
    c3_osb_bounded_memory Nat [10, 11] 2 (by decide) _ Relation.ReflTransGen.refl⟩

/-- C5: once `next()` has returned `None` (from any reachable state), the
post-state equals the pre-state and every later call returns `None` with the
same unchanged state — end of sequence is deterministic and idempotent. -/
theorem c5_osb_done_idempotent (α : Type) (xs : List α) (W : Nat) (hW : 1 ≤ W)
    (s s' : OsbTokenizer α) (hr : reaches (OsbTokenizer.new xs W) s)
    (hd : s.next = .done s') :
    s' = s ∧ s'.next = .done s' := by
  obtain ⟨i, k, f, hv, hs⟩ := reach_canonical xs W hW s hr
  subst hs
  by_cases hi : i < xs.length
  · obtain ⟨hW1, hkf, hif, hfW, hk5, hterm⟩ := hv
    have hv' : Valid xs W i k f := ⟨hW1, hkf, hif, hfW, hk5, hterm⟩
    have hkm := hk5 hi
    have hik : i + k < xs.length := by omega
    have hemit := next_canonical_emit xs W i k f xs[i] xs[i+k] hW hv' hi
      (List.getElem?_eq_getElem hi) (List.getElem?_eq_getElem hik)
    rw [hemit] at hd
    exact absurd hd (by simp)
  · obtain ⟨_, _, _, _, _, hterm⟩ := hv
    obtain ⟨hiN, hk0, hf0⟩ := hterm (by omega)
    subst hk0 hf0
    rw [hiN] at hd ⊢
    have hT := next_canonical_terminal xs W hW
    rw [hT] at hd
    have heq := (Step.done.injEq _ _).mp hd
    refine ⟨heq.symm, ?_⟩
    rw [← heq]
    exact hT

theorem c5_osb_done_idempotent_witness :
    (OsbTokenizer.new ([] : List Nat) 1).next =
      Step.done (OsbTokenizer.new ([] : List Nat) 1) ∧
    (OsbTokenizer.new ([] : List Nat) 1 = OsbTokenizer.new ([] : List Nat) 1 ∧
      (OsbTokenizer.new ([] : List Nat) 1).next =
        Step.done (OsbTokenizer.new ([] : List Nat) 1)) :=
  ⟨by decide,
    c5_osb_done_idempotent Nat [] 1 (by decide) _ _ Relation.ReflTransGen.refl
      (by decide)⟩

/-- C6: with `window_size = 1` the tokenizer emits exactly one `Uni` gram per
upstream token, in order, all at offset 0. -/
theorem c6_osb_degenerate_window (α : Type) (xs : List α) (fuel : Nat)
    (hfuel : xs.length ≤ fuel) :
    (runAll fuel (OsbTokenizer.new xs 1)).1 =
      xs.map (fun x => ⟨Gram.Uni x, 0⟩) := by
  have h := run_new xs 1 fuel (Nat.le_refl 1)
    (by rw [totalGrams_one]; exact hfuel)
  rw [h, osbSpec_one]

theorem c6_osb_degenerate_window_witness :
    ([10, 11, 12] : List Nat).length ≤ 3 ∧
    (runAll 3 (OsbTokenizer.new [10, 11, 12] 1)).1 =
      List.map (fun x => (⟨Gram.Uni x, 0⟩ : OsbToken Nat)) [10, 11, 12] :=
  ⟨by decide, c6_osb_degenerate_window Nat [10, 11, 12] 3 (by decide)⟩

/-- C7: a single `next()` call consumes at most one token from the upstream
source, and consumes none at all when the slot being filled is already
occupied. -/
theorem c7_osb_pull_at_most_one (α : Type) (s s' : OsbTokenizer α)
    (h : (∃ t, s.next = .yield t s') ∨ s.next = .done s') :
    (s'.iter = s.iter ∨ s'.iter = s.iter.tail) ∧
    ((s.buf.getD ((s.window_pos + s.window_idx) % s.window_size) none).isSome →
      s'.iter = s.iter) := by
  have hiter := next_state_iter s s' h
  constructor
  · rcases fillStep_iter s ((s.window_pos + s.window_idx) % s.window_size) with hf | hf
    · left
      rw [hiter, hf]
    · right
      rw [hiter, hf]
  · intro hsome
    rw [hiter, fillStep_of_some s _ hsome]

theorem c7_osb_pull_at_most_one_witness :
    ((∃ t, (OsbTokenizer.new [10] 1).next =
        Step.yield t (⟨[], [none], 1, 1, 0⟩ : OsbTokenizer Nat)) ∨
      (OsbTokenizer.new [10] 1).next = Step.done (⟨[], [none], 1, 1, 0⟩ : OsbTokenizer Nat)) ∧
    (((⟨[], [none], 1, 1, 0⟩ : OsbTokenizer Nat).iter = (OsbTokenizer.new [10] 1).iter ∨
        (⟨[], [none], 1, 1, 0⟩ : OsbTokenizer Nat).iter = (OsbTokenizer.new [10] 1).iter.tail) ∧
      (((OsbTokenizer.new [10] 1).buf.getD
          (((OsbTokenizer.new [10] 1).window_pos + (OsbTokenizer.new [10] 1).window_idx) %
            (OsbTokenizer.new [10] 1).window_size) none).isSome →
        (⟨[], [none], 1, 1, 0⟩ : OsbTokenizer Nat).iter = (OsbTokenizer.new [10] 1).iter)) :=
  ⟨Or.inl ⟨⟨Gram.Uni 10, 0⟩, by decide⟩,
    c7_osb_pull_at_most_one Nat (OsbTokenizer.new [10] 1) _
      (Or.inl ⟨⟨Gram.Uni 10, 0⟩, by decide⟩)⟩

/-- C10: from any reachable state, `next()` returns `None` only at a clean
anchor boundary: `window_idx = 0`, the source exhausted and every buffer slot
empty, so the mid-anchor failure path (a `Bi` whose paired slot is empty) is
never taken. -/
theorem c10_osb_none_only_at_anchor_boundary (α : Type) (xs : List α) (W : Nat)
    (hW : 1 ≤ W) (s s' : OsbTokenizer α)
    (hr : reaches (OsbTokenizer.new xs W) s) (hd : s.next = .done s') :
    s.window_idx = 0 ∧ s.iter = [] ∧ s.buf = List.replicate W none := by
  obtain ⟨i, k, f, hv, hs⟩ := reach_canonical xs W hW s hr
  subst hs
  by_cases hi : i < xs.length
  · obtain ⟨hW1, hkf, hif, hfW, hk5, hterm⟩ := hv
    have hv' : Valid xs W i k f := ⟨hW1, hkf, hif, hfW, hk5, hterm⟩
    have hkm := hk5 hi
    have hik : i + k < xs.length := by omega
    have hemit := next_canonical_emit xs W i k f xs[i] xs[i+k] hW hv' hi
      (List.getElem?_eq_getElem hi) (List.getElem?_eq_getElem hik)
    rw [hemit] at hd
    exact absurd hd (by simp)
  · obtain ⟨_, _, _, _, _, hterm⟩ := hv
    obtain ⟨hiN, hk0, hf0⟩ := hterm (by omega)
    subst hk0 hf0
    refine ⟨rfl, ?_, ?_⟩
    · rw [canonical_iter, hiN]
      exact List.drop_eq_nil_of_le (by omega)
    · rw [canonical_buf, canonBuf_zero]

theorem c10_osb_none_only_at_anchor_boundary_witness :
    (OsbTokenizer.new ([] : List Nat) 2).next =
      Step.done (OsbTokenizer.new ([] : List Nat) 2) ∧
    ((OsbTokenizer.new ([] : List Nat) 2).window_idx = 0 ∧
      (OsbTokenizer.new ([] : List Nat) 2).iter = [] ∧
      (OsbTokenizer.new ([] : List Nat) 2).buf = List.replicate 2 none) :=
  ⟨by decide,
    c10_osb_none_only_at_anchor_boundary Nat [] 2 (by decide)
      (OsbTokenizer.new [] 2) (OsbTokenizer.new [] 2)
      Relation.ReflTransGen.refl (by decide)⟩

/-- C4, counterexample: `OsbTokenizer::new` with `window_size = 0` is *not*
rejected — it returns an ordinary instance — and the very first call to
`next()` evaluates `… % 0`, the Rust remainder-by-zero panic (`Step.panic`),
contradicting "no call sequence on it divides by zero". -/
theorem c4_osb_zero_window_counterexample :
    OsbTokenizer.new [(10 : Nat)] 0 = (⟨[10], [], 0, 0, 0⟩ : OsbTokenizer Nat) ∧
    (OsbTokenizer.new [(10 : Nat)] 0).next = Step.panic :=
  ⟨rfl, rfl⟩

/-- C4, amended: construction with `window_size = 0` is not validated and
succeeds; the misconfiguration surfaces only on the first `next()` call,
which performs a remainder by zero (a Rust panic, not silent misbehaviour). -/
theorem c4_osb_zero_window_panics (α : Type) (xs : List α) :
    (OsbTokenizer.new xs 0).next = Step.panic := rfl

/-! ## The `ValidateSieveScriptRequest` parser
(`crates/jmap-proto/src/method/validate.rs`)

Only validate.rs itself is in the sources; the `Parser`, `RequestProperty`,
`Id`, `BlobId` and token machinery it uses live elsewhere in the repository.
Those pieces are modelled from the spec (§6): the parser walks the key/value
pairs of the request dict; field matching by numeric fingerprint is, per the
spec, plain "field name → value" semantics; `unwrap_string` yields the value
of a string token and otherwise fails naming the offending field;
`skip_token` consumes any value. -/

/-- Modelled from the spec: the JSON value of one dict entry, as seen by
`next_token` — either a string token (which `unwrap_string` accepts) or any
other token shape (which `unwrap_string` rejects). -/
inductive JsonValue where
  | str : String → JsonValue
  | other : JsonValue
  deriving Repr, DecidableEq

def JsonValue.isStr : JsonValue → Bool
  | .str _ => true
  | .other => false

/-- Modelled from the spec: the dict key returned by
`next_dict_key::<RequestProperty>` — a field name plus the back-reference
flag (`is_ref`); validate.rs compares the name (via its fingerprint) and
requires `!key.is_ref`. -/
structure RequestProperty where
  name : String
  is_ref : Bool
  deriving Repr, DecidableEq

/-- The `ValidateSieveScriptRequest` struct of validate.rs.  Modelled from
the spec: `Id` and `BlobId` are opaque identifiers decoded from JSON
strings; their `default()` values are modelled as the empty string. -/
structure ValidateSieveScriptRequest where
  account_id : String
  blob_id : String
  deriving Repr, DecidableEq

/-- The `while let Some(key) = parser.next_dict_key()` loop of
`ValidateSieveScriptRequest::parse`, with `req` the accumulator initialised
to the defaults: a non-reference `accountId`/`blobId` key stores its string
value (a non-string value is the `unwrap_string` hard failure carrying the
field name); every other key is skipped. -/
def parseLoop : List (RequestProperty × JsonValue) → ValidateSieveScriptRequest →
    Except String ValidateSieveScriptRequest
  | [], req => .ok req
  | (k, v) :: fs, req =>
    if k.name = "accountId" ∧ k.is_ref = false then
      match v with
      | .str s => parseLoop fs { req with account_id := s }
      | .other => .error "accountId"
    else if k.name = "blobId" ∧ k.is_ref = false then
      match v with
      | .str s => parseLoop fs { req with blob_id := s }
      | .other => .error "blobId"
    else
      parseLoop fs req

/-- `ValidateSieveScriptRequest::parse`: run the loop on the request dict's
key/value pairs starting from the default-initialised request. -/
def ValidateSieveScriptRequest.parse (fields : List (RequestProperty × JsonValue)) :
    Except String ValidateSieveScriptRequest :=
  parseLoop fields { account_id := "", blob_id := "" }

/-- A field the parse loop recognises: `accountId` or `blobId`, not a
back-reference. -/
def isRecognized (f : RequestProperty × JsonValue) : Bool :=
  (f.1.name == "accountId" || f.1.name == "blobId") && !f.1.is_ref

/-- A field that does not trip `unwrap_string`: unrecognised, or carrying a
string value. -/
def fieldOk (f : RequestProperty × JsonValue) : Bool :=
  !(isRecognized f) || (f.2).isStr

theorem parseLoop_mismatch (name : String) (fs₁ fs₂ : List (RequestProperty × JsonValue))
    (req : ValidateSieveScriptRequest)
    (hname : name = "accountId" ∨ name = "blobId")
    (hok : ∀ f ∈ fs₁, fieldOk f = true) :
    parseLoop (fs₁ ++ (⟨name, false⟩, JsonValue.other) :: fs₂) req = .error name := by
  induction fs₁ generalizing req with
  | nil =>
    rcases hname with h | h <;> subst h <;> rfl
  | cons f fs₁ ih =>
    obtain ⟨k, v⟩ := f
    have hh := hok (k, v) (by simp)
    have ht : ∀ f ∈ fs₁, fieldOk f = true := fun f hf => hok f (by simp [hf])
    rw [List.cons_append]
    by_cases h1 : k.name = "accountId" ∧ k.is_ref = false
    · have hrec : isRecognized (k, v) = true := by
        simp [isRecognized, h1.1, h1.2]
      rw [fieldOk, hrec] at hh
      simp only [Bool.not_true, Bool.false_or] at hh
      cases v with
      | str s =>
        simp only [parseLoop]
        rw [if_pos h1]
        exact ih _ ht
      | other => simp [JsonValue.isStr] at hh
    · by_cases h2 : k.name = "blobId" ∧ k.is_ref = false
      · have hrec : isRecognized (k, v) = true := by
          simp [isRecognized, h2.1, h2.2]
        rw [fieldOk, hrec] at hh
        simp only [Bool.not_true, Bool.false_or] at hh
        cases v with
        | str s =>
          simp only [parseLoop]
          rw [if_neg h1, if_pos h2]
          exact ih _ ht
        | other => simp [JsonValue.isStr] at hh
      · simp only [parseLoop]
        rw [if_neg h1, if_neg h2]
        exact ih _ ht

/-- Dropping the unrecognised fields never changes the outcome of the parse
loop: they are skipped without effect. -/
theorem parseLoop_skip_unrecognized (fs : List (RequestProperty × JsonValue))
    (req : ValidateSieveScriptRequest) :
    parseLoop fs req = parseLoop (fs.filter isRecognized) req := by
  induction fs generalizing req with
  | nil => rfl
  | cons f fs ih =>
    obtain ⟨k, v⟩ := f
    by_cases h1 : k.name = "accountId" ∧ k.is_ref = false
    · have hrec : isRecognized (k, v) = true := by
        simp [isRecognized, h1.1, h1.2]
      rw [List.filter_cons_of_pos hrec]
      cases v with
      | str s =>
        simp only [parseLoop]
        rw [if_pos h1, if_pos h1]
        exact ih _
      | other =>
        simp only [parseLoop]
        rw [if_pos h1, if_pos h1]
    · by_cases h2 : k.name = "blobId" ∧ k.is_ref = false
      · have hrec : isRecognized (k, v) = true := by
          simp [isRecognized, h2.1, h2.2]
        rw [List.filter_cons_of_pos hrec]
        cases v with
        | str s =>
          simp only [parseLoop]
          rw [if_neg h1, if_pos h2, if_neg h1, if_pos h2]
          exact ih _
        | other =>
          simp only [parseLoop]
          rw [if_neg h1, if_pos h2, if_neg h1, if_pos h2]
      · have hrec : ¬ (isRecognized (k, v) = true) := by
          simp only [isRecognized]
          simp only [Bool.and_eq_true, Bool.or_eq_true, beq_iff_eq,
            Bool.not_eq_true']
          tauto
        rw [List.filter_cons_of_neg hrec]
        simp only [parseLoop]
        rw [if_neg h1, if_neg h2]
        exact ih _

/-- When every recognised field carries a string value the parse loop
succeeds. -/
theorem parseLoop_ok (fs : List (RequestProperty × JsonValue))
    (req : ValidateSieveScriptRequest)
    (hok : ∀ f ∈ fs, fieldOk f = true) :
    ∃ r, parseLoop fs req = .ok r := by
  induction fs generalizing req with
  | nil => exact ⟨req, rfl⟩
  | cons f fs ih =>
    obtain ⟨k, v⟩ := f
    have hh := hok (k, v) (by simp)
    have ht : ∀ f ∈ fs, fieldOk f = true := fun f hf => hok f (by simp [hf])
    by_cases h1 : k.name = "accountId" ∧ k.is_ref = false
    · have hrec : isRecognized (k, v) = true := by
        simp [isRecognized, h1.1, h1.2]
      rw [fieldOk, hrec] at hh
      simp only [Bool.not_true, Bool.false_or] at hh
      cases v with
      | str s =>
        simp only [parseLoop]
        rw [if_pos h1]
        exact ih _ ht
      | other => simp [JsonValue.isStr] at hh
    · by_cases h2 : k.name = "blobId" ∧ k.is_ref = false
      · have hrec : isRecognized (k, v) = true := by
          simp [isRecognized, h2.1, h2.2]
        rw [fieldOk, hrec] at hh
        simp only [Bool.not_true, Bool.false_or] at hh
        cases v with
        | str s =>
          simp only [parseLoop]
          rw [if_neg h1, if_pos h2]
          exact ih _ ht
        | other => simp [JsonValue.isStr] at hh
      · simp only [parseLoop]
        rw [if_neg h1, if_neg h2]
        exact ih _ ht

/-- C8, counterexample: a request body missing BOTH required fields parses
successfully into a request carrying the default (empty) identifiers — on
the code, a missing required field is *not* a hard parse failure. -/
theorem c8_missing_field_counterexample :
    ValidateSieveScriptRequest.parse [] =
      .ok (⟨"", ""⟩ : ValidateSieveScriptRequest) := rfl

/-- C8, amended: a type-mismatched required field (`accountId` or `blobId`
bound to a non-string value, with no earlier mismatch) is a hard parse
failure reported with the offending field name; a *missing* required field,
by contrast, is not an error — the field silently keeps its default value. -/
theorem c8_mismatch_reports_field_name (name : String)
    (fs₁ fs₂ : List (RequestProperty × JsonValue))
    (hname : name = "accountId" ∨ name = "blobId")
    (hok : ∀ f ∈ fs₁, fieldOk f = true) :
    ValidateSieveScriptRequest.parse (fs₁ ++ (⟨name, false⟩, JsonValue.other) :: fs₂) =
      .error name := by
  unfold ValidateSieveScriptRequest.parse
  exact parseLoop_mismatch name fs₁ fs₂ _ hname hok

theorem c8_mismatch_reports_field_name_witness :
    ("accountId" = "accountId" ∨ "accountId" = "blobId") ∧
    (∀ f ∈ [((⟨"x", false⟩ : RequestProperty), JsonValue.str "v")], fieldOk f = true) ∧
    ValidateSieveScriptRequest.parse
      ([((⟨"x", false⟩ : RequestProperty), JsonValue.str "v")] ++
        (⟨"accountId", false⟩, JsonValue.other) :: []) = .error "accountId" :=
  ⟨Or.inl rfl, by decide,
    c8_mismatch_reports_field_name "accountId" _ _ (Or.inl rfl) (by decide)⟩

/-- C9: every field other than a non-reference `accountId`/`blobId` is
silently skipped — parsing a body equals parsing just its recognised fields
— and (when the recognised fields are well-typed) parsing succeeds with the
request built from them. -/
theorem c9_unknown_fields_ignored (fs : List (RequestProperty × JsonValue))
    (hok : ∀ f ∈ fs, fieldOk f = true) :
    ValidateSieveScriptRequest.parse fs =
      ValidateSieveScriptRequest.parse (fs.filter isRecognized) ∧
    ∃ r, ValidateSieveScriptRequest.parse fs = .ok r := by
  unfold ValidateSieveScriptRequest.parse
  exact ⟨parseLoop_skip_unrecognized fs _, parseLoop_ok fs _ hok⟩

theorem c9_unknown_fields_ignored_witness :
    (∀ f ∈ [((⟨"foo", false⟩ : RequestProperty), JsonValue.other),
        (⟨"accountId", false⟩, JsonValue.str "a"),
        (⟨"blobId", true⟩, JsonValue.str "y")], fieldOk f = true) ∧
    (ValidateSieveScriptRequest.parse
        [((⟨"foo", false⟩ : RequestProperty), JsonValue.other),
          (⟨"accountId", false⟩, JsonValue.str "a"),
          (⟨"blobId", true⟩, JsonValue.str "y")] =
      ValidateSieveScriptRequest.parse
        ([((⟨"foo", false⟩ : RequestProperty), JsonValue.other),
          (⟨"accountId", false⟩, JsonValue.str "a"),
          (⟨"blobId", true⟩, JsonValue.str "y")].filter isRecognized) ∧
    ∃ r, ValidateSieveScriptRequest.parse
        [((⟨"foo", false⟩ : RequestProperty), JsonValue.other),
          (⟨"accountId", false⟩, JsonValue.str "a"),
          (⟨"blobId", true⟩, JsonValue.str "y")] = .ok r) :=
  ⟨by decide,
    c9_unknown_fields_ignored
      [((⟨"foo", false⟩ : RequestProperty), JsonValue.other),
        (⟨"accountId", false⟩, JsonValue.str "a"),
        (⟨"blobId", true⟩, JsonValue.str "y")] (by decide)⟩

end MailServer
